import Mathlib

set_option maxRecDepth 40000

/-!
Shallow embedding of `extract_and_chunk.py` (DocuIntelli): MIME-dispatched
text extraction and sliding-window chunking with overlap.

Python strings are modelled as `List Char` (a Python `str` is a sequence of
characters).  The external capabilities the extractor consumes (the
`pdfplumber` page sequence, `docx2txt`, the filesystem read) are modelled as
an explicit environment record, and a raised exception is modelled as
`Except.error`.
-/

/-- A chunk record, `{"index": index, "content": content}`, as built by
`chunk_text`. -/
structure Chunk where
  index : Nat
  content : List Char
  deriving DecidableEq, Repr

/-- Python `str.strip()`: remove leading and trailing whitespace. -/
def pyStrip (l : List Char) : List Char :=
  (l.dropWhile Char.isWhitespace).rdropWhile Char.isWhitespace

/-- The `while start < len(text)` loop of `chunk_text`, with an explicit
fuel bound on the number of iterations.  Each iteration with
`start < len(text)` appends `{index, content: text[start:start+chunk_size].strip()}`
and advances to `start = (start + chunk_size) - overlap`, `index + 1`,
exactly as the source does.  The loop itself is unbounded; the stability
theorem below shows that whenever `overlap < chunk_size`, any fuel of at
least `text.length - start` yields the loop's final result. -/
def chunkTextAux (text : List Char) (chunk_size overlap : Nat) :
    Nat → Nat → Nat → List Chunk
  | 0, _, _ => []
  | fuel + 1, start, index =>
    if start < text.length then
      Chunk.mk index (pyStrip ((text.drop start).take chunk_size)) ::
        chunkTextAux text chunk_size overlap fuel (start + chunk_size - overlap) (index + 1)
    else []

/-- `chunk_text(text, chunk_size=1000, overlap=100)` at its default
parameters (the program always calls it with the defaults): cursor `start`
and counter `index` begin at 0; fuel `text.length` is enough for the loop
to reach `start ≥ len(text)`, since each iteration advances `start` by
`1000 - 100 = 900 ≥ 1`. -/
def chunk_text (text : List Char) : List Chunk :=
  chunkTextAux text 1000 100 text.length 0 0

/-- The pre-trim source window of the chunk with index `i` at the default
parameters: `text[i*900 : i*900 + 1000]`. -/
def window (text : List Char) (i : Nat) : List Char :=
  (text.drop (i * 900)).take 1000

/-- The external capabilities `extract_text` consumes, as one record:
`pdfPages` models `pdfplumber.open(file_path).pages` with
`page.extract_text()` applied to each page (`none` when a page yields no
text), `wordText` models `docx2txt.process(file_path)`, and `textContent`
models the file's decoded UTF-8 contents. -/
structure FileEnv where
  pdfPages : List (Option (List Char))
  wordText : List Char
  textContent : List Char

/-- `extract_text(file_path, mime_type)` from the source.  The four cases
are checked in order: exact match on `"application/pdf"`, membership in the
two-element Word MIME list, `mime_type.startswith("text/")`, else
`raise Exception("Unsupported file type: " + mime_type)`.  In the PDF case
the source folds over the pages accumulating `text += page_text + "\n"`
under Python's truthiness test `if page_text:` (skipping both `None` and
the empty string). -/
def extract_text (env : FileEnv) (mime_type : List Char) :
    Except (List Char) (List Char) :=
  if mime_type = "application/pdf".toList then
    Except.ok (env.pdfPages.foldl
      (fun text page_text =>
        match page_text with
        | some t => if t = [] then text else text ++ t ++ ['\n']
        | none => text) [])
  else if mime_type ∈ ["application/vnd.openxmlformats-officedocument.wordprocessingml.document".toList,
      "application/msword".toList] then
    Except.ok env.wordText
  else if "text/".toList.isPrefixOf mime_type then
    Except.ok env.textContent
  else
    Except.error ("Unsupported file type: ".toList ++ mime_type)

/-- Once the cursor has reached the end of the text the loop emits nothing,
whatever fuel remains. -/
theorem chunkTextAux_stop (text : List Char) (chunk_size overlap fuel start index : Nat)
    (h : text.length ≤ start) :
    chunkTextAux text chunk_size overlap fuel start index = [] := by
  cases fuel with
  | zero => rfl
  | succ fuel => simp [chunkTextAux, Nat.not_lt.mpr h]

/-- With a positive step, any two fuels of at least `text.length - start`
give the same result: the loop really terminates within that many
iterations. -/
theorem chunkTextAux_stable (text : List Char) (chunk_size overlap : Nat)
    (h : overlap < chunk_size) :
    ∀ fuel fuel' start index, text.length - start ≤ fuel → text.length - start ≤ fuel' →
      chunkTextAux text chunk_size overlap fuel start index =
        chunkTextAux text chunk_size overlap fuel' start index := by
  intro fuel
  induction fuel with
  | zero =>
    intro fuel' start index h1 _
    rw [chunkTextAux_stop text chunk_size overlap 0 start index (by omega),
      chunkTextAux_stop text chunk_size overlap fuel' start index (by omega)]
  | succ fuel ih =>
    intro fuel' start index h1 h2
    by_cases hs : start < text.length
    · obtain ⟨f', rfl⟩ : ∃ f', fuel' = f' + 1 := ⟨fuel' - 1, by omega⟩
      simp only [chunkTextAux, if_pos hs]
      rw [ih f' (start + chunk_size - overlap) (index + 1) (by omega) (by omega)]
    · rw [chunkTextAux_stop text chunk_size overlap (fuel + 1) start index (by omega),
        chunkTextAux_stop text chunk_size overlap fuel' start index (by omega)]

/-- The loop starting at `start` with enough fuel emits exactly
`⌈(text.length - start) / (chunk_size - overlap)⌉` chunks. -/
theorem chunkTextAux_length (text : List Char) (chunk_size overlap : Nat)
    (h : overlap < chunk_size) :
    ∀ fuel start index, text.length - start ≤ fuel →
      (chunkTextAux text chunk_size overlap fuel start index).length =
        (text.length - start + (chunk_size - overlap) - 1) / (chunk_size - overlap) := by
  intro fuel
  induction fuel with
  | zero =>
    intro start index h1
    rw [chunkTextAux_stop text chunk_size overlap 0 start index (by omega)]
    have h2 : text.length - start = 0 := by omega
    rw [h2]
    show 0 = (0 + (chunk_size - overlap) - 1) / (chunk_size - overlap)
    rw [Nat.div_eq_of_lt (by omega)]
  | succ fuel ih =>
    intro start index h1
    by_cases hs : start < text.length
    · simp only [chunkTextAux, if_pos hs, List.length_cons]
      rw [ih (start + chunk_size - overlap) (index + 1) (by omega)]
      have e1 : text.length - (start + chunk_size - overlap)
          = text.length - start - (chunk_size - overlap) := by omega
      rw [e1]
      rcases le_or_lt (text.length - start) (chunk_size - overlap) with hds | hds
      · have e2 : text.length - start - (chunk_size - overlap) = 0 := by omega
        rw [e2, Nat.div_eq_of_lt (show 0 + (chunk_size - overlap) - 1 < chunk_size - overlap
          by omega)]
        have e3 : text.length - start + (chunk_size - overlap) - 1
            = (text.length - start - 1) + (chunk_size - overlap) := by omega
        rw [e3, Nat.add_div_right _ (by omega),
          Nat.div_eq_of_lt (show text.length - start - 1 < chunk_size - overlap by omega)]
      · have e2 : text.length - start - (chunk_size - overlap) + (chunk_size - overlap) - 1
            = text.length - start - 1 := by omega
        have e3 : text.length - start + (chunk_size - overlap) - 1
            = (text.length - start - 1) + (chunk_size - overlap) := by omega
        rw [e2, e3, Nat.add_div_right _ (by omega)]
    · rw [chunkTextAux_stop text chunk_size overlap (fuel + 1) start index (by omega)]
      have h2 : text.length - start = 0 := by omega
      rw [h2]
      show 0 = (0 + (chunk_size - overlap) - 1) / (chunk_size - overlap)
      rw [Nat.div_eq_of_lt (by omega)]

/-- The `j`-th emitted chunk of the loop starting at `start` carries index
`index + j` and the trimmed slice whose window begins at
`start + j * (chunk_size - overlap)`. -/
theorem chunkTextAux_getElem? (text : List Char) (chunk_size overlap : Nat)
    (h : overlap < chunk_size) :
    ∀ fuel start index j, text.length - start ≤ fuel →
      (chunkTextAux text chunk_size overlap fuel start index)[j]? =
        if start + j * (chunk_size - overlap) < text.length then
          some (Chunk.mk (index + j)
            (pyStrip ((text.drop (start + j * (chunk_size - overlap))).take chunk_size)))
        else none := by
  intro fuel
  induction fuel with
  | zero =>
    intro start index j h1
    rw [chunkTextAux_stop text chunk_size overlap 0 start index (by omega)]
    have hcond : ¬ (start + j * (chunk_size - overlap) < text.length) := by
      generalize j * (chunk_size - overlap) = m
      omega
    rw [if_neg hcond]
    rfl
  | succ fuel ih =>
    intro start index j h1
    by_cases hs : start < text.length
    · cases j with
      | zero => simp [chunkTextAux, hs]
      | succ j =>
        simp only [chunkTextAux, if_pos hs, List.getElem?_cons_succ]
        rw [ih (start + chunk_size - overlap) (index + 1) j (by omega)]
        have e1 : start + chunk_size - overlap + j * (chunk_size - overlap)
            = start + (j + 1) * (chunk_size - overlap) := by
          rw [Nat.add_mul, Nat.one_mul]
          generalize j * (chunk_size - overlap) = m
          omega
        have e2 : index + 1 + j = index + (j + 1) := by omega
        rw [e1, e2]
    · rw [chunkTextAux_stop text chunk_size overlap (fuel + 1) start index (by omega)]
      have hcond : ¬ (start + j * (chunk_size - overlap) < text.length) := by
        generalize j * (chunk_size - overlap) = m
        omega
      rw [if_neg hcond]
      rfl

/-- `chunk_text` at the default parameters emits `⌈len / 900⌉` chunks. -/
theorem chunk_text_length_eq (T : List Char) :
    (chunk_text T).length = (T.length + 899) / 900 := by
  have h := chunkTextAux_length T 1000 100 (by norm_num) T.length 0 0 (by omega)
  simp only [chunk_text]
  rw [h]
  omega

/-- The `i`-th chunk of `chunk_text` is the trimmed window
`text[i*900 : i*900+1000]` tagged with index `i`, and exists exactly when
`i * 900 < text.length`. -/
theorem chunk_text_getElem?_eq (T : List Char) (i : Nat) :
    (chunk_text T)[i]? =
      if i * 900 < T.length then some (Chunk.mk i (pyStrip (window T i))) else none := by
  have h := chunkTextAux_getElem? T 1000 100 (by norm_num) T.length 0 0 i (by omega)
  simp only [chunk_text, window]
  rw [h]
  norm_num

/-- `List.get` form of `chunk_text_getElem?_eq`. -/
theorem chunk_text_get (T : List Char) (i : Nat) (h : i < (chunk_text T).length) :
    (chunk_text T).get ⟨i, h⟩ = Chunk.mk i (pyStrip (window T i)) := by
  have hlen : i * 900 < T.length := by
    have hl := chunk_text_length_eq T
    omega
  have hsome := chunk_text_getElem?_eq T i
  rw [if_pos hlen, List.getElem?_eq_getElem h] at hsome
  rw [List.get_eq_getElem]
  exact Option.some.inj hsome

/-- Trimming returns an infix (contiguous sublist) of its argument. -/
theorem pyStrip_isInfix (l : List Char) : pyStrip l <:+: l := by
  have h1 : pyStrip l <+: l.dropWhile Char.isWhitespace :=
    List.rdropWhile_prefix Char.isWhitespace (l.dropWhile Char.isWhitespace)
  have h2 : l.dropWhile Char.isWhitespace <:+ l := List.dropWhile_suffix Char.isWhitespace
  exact (List.IsPrefix.isInfix h1).trans (List.IsSuffix.isInfix h2)

/-- The first character of a trimmed slice is never whitespace. -/
theorem pyStrip_head?_not_white (l : List Char) (c : Char)
    (h : (pyStrip l).head? = some c) : c.isWhitespace = false := by
  have hpre : pyStrip l <+: l.dropWhile Char.isWhitespace :=
    List.rdropWhile_prefix Char.isWhitespace (l.dropWhile Char.isWhitespace)
  obtain ⟨t, ht⟩ := hpre
  cases hp : pyStrip l with
  | nil => rw [hp] at h; exact absurd h (by simp)
  | cons a as =>
    rw [hp] at h ht
    have hca : c = a := by simpa using h.symm
    have hm : (l.dropWhile Char.isWhitespace).head? = some a := by
      rw [← ht]; simp
    have k := List.head?_dropWhile_not Char.isWhitespace l
    rw [hm] at k
    rw [hca]
    exact k

/-- The last character of a trimmed slice is never whitespace. -/
theorem pyStrip_getLast?_not_white (l : List Char) (c : Char)
    (h : (pyStrip l).getLast? = some c) : c.isWhitespace = false := by
  have e : (pyStrip l).getLast? =
      ((l.dropWhile Char.isWhitespace).reverse.dropWhile Char.isWhitespace).head? := by
    simp only [pyStrip, List.rdropWhile]
    exact List.getLast?_reverse _
  rw [e] at h
  have k := List.head?_dropWhile_not Char.isWhitespace
    (l.dropWhile Char.isWhitespace).reverse
  rw [h] at k
  exact k

/-- Trimming an all-whitespace slice yields the empty string. -/
theorem pyStrip_eq_nil_of_all_white (l : List Char)
    (h : ∀ c ∈ l, c.isWhitespace = true) : pyStrip l = [] := by
  simp only [pyStrip]
  rw [List.dropWhile_eq_nil_iff.mpr (by simpa using h)]
  simp [List.rdropWhile]

/-- The pre-trim window of any chunk is an infix of the text. -/
theorem window_isInfix (T : List Char) (i : Nat) : window T i <:+: T := by
  have h1 : window T i <+: T.drop (i * 900) := List.take_prefix 1000 (T.drop (i * 900))
  have h2 : T.drop (i * 900) <:+ T := List.drop_suffix (i * 900) T
  exact (List.IsPrefix.isInfix h1).trans (List.IsSuffix.isInfix h2)

/-- The page fold of the PDF branch equals the flattened per-page
contributions: each truthy page text followed by one newline, the rest
contributing nothing. -/
theorem extract_foldl_pages (pages : List (Option (List Char))) (acc : List Char) :
    pages.foldl (fun text page_text =>
      match page_text with
      | some t => if t = [] then text else text ++ t ++ ['\n']
      | none => text) acc
    = acc ++ (pages.map (fun page_text =>
        match page_text with
        | some t => if t = [] then ([] : List Char) else t ++ ['\n']
        | none => ([] : List Char))).flatten := by
  induction pages generalizing acc with
  | nil => simp
  | cons head tail ih =>
    rw [List.foldl_cons, ih]
    cases head with
    | none => simp
    | some t =>
      by_cases ht : t = []
      · simp [ht]
      · simp [ht, List.append_assoc]

/-- C1 counterexample: on the 1800-character all-`'a'` text, `chunk_text`
with the default parameters (1000, 100) emits 2 chunks, not 3 as claimed:
the cursor positions are 0 and 900, and after the second iteration the
cursor is `1900 - 100 = 1800`, which is not `< 1800`, so the loop stops. -/
theorem c1_counterexample :
    (chunk_text (List.replicate 1800 'a')).length = 2 ∧
      ¬ (chunk_text (List.replicate 1800 'a')).length = 3 := by
  decide

/-- C1 (amended): `chunk("a"*1800, 1000, 100)` returns exactly 2 chunks:
the chunk with index 0 has content equal to characters `[0:1000]` and the
chunk with index 1 has content equal to characters `[900:1800]` (the
window `[900:1900]` clipped to the text's end); since the text is all
`"a"`, trimming changes nothing. -/
theorem c1_chunk_1800a :
    chunk_text (List.replicate 1800 'a') =
      [Chunk.mk 0 (List.replicate 1000 'a'), Chunk.mk 1 (List.replicate 900 'a')] := by
  decide

/-- C2: for every text `T`, `chunk_text` at the default parameters returns
exactly `⌈|T| / (1000 - 100)⌉ = (|T| + 899) / 900` chunks when `|T| > 0`,
and the empty sequence when `|T| = 0`. -/
theorem c2_chunk_count (T : List Char) :
    (0 < T.length → (chunk_text T).length = (T.length + 899) / 900)
    ∧ (T.length = 0 → chunk_text T = []) := by
  refine ⟨fun _ => chunk_text_length_eq T, fun h0 => ?_⟩
  have hT : T = [] := List.length_eq_zero.mp h0
  subst hT
  rfl

theorem c2_witness :
    (chunk_text "hello".toList).length = ("hello".toList.length + 899) / 900
    ∧ chunk_text "".toList = [] :=
  ⟨(c2_chunk_count "hello".toList).1 (by decide), (c2_chunk_count "".toList).2 (by decide)⟩

/-- C3: at the default parameters the pre-trim source window of the chunk
with index `i` is `text[i*900 : i*900+1000]`: the `i`-th chunk's content is
that window trimmed, each window after the first begins with the 100
characters that end the previous window, and every window is clipped at
the text's end (no padding, no error). -/
theorem c3_window (T : List Char) (i : Nat) (h : i < (chunk_text T).length) :
    ((chunk_text T).get ⟨i, h⟩).content = pyStrip (window T i)
    ∧ (window T (i + 1)).take 100 = (window T i).drop 900
    ∧ (window T i).length = min 1000 (T.length - i * 900) := by
  refine ⟨by rw [chunk_text_get T i h], ?_, ?_⟩
  · show ((T.drop ((i + 1) * 900)).take 1000).take 100
        = ((T.drop (i * 900)).take 1000).drop 900
    rw [List.take_take, List.drop_take, List.drop_drop]
    have e1 : (i + 1) * 900 = i * 900 + 900 := by ring
    rw [e1]
    norm_num
  · show ((T.drop (i * 900)).take 1000).length = min 1000 (T.length - i * 900)
    rw [List.length_take, List.length_drop]

theorem c3_witness :
    0 < (chunk_text "ab".toList).length
    ∧ (((chunk_text "ab".toList).get ⟨0, by decide⟩).content = pyStrip (window "ab".toList 0)
      ∧ (window "ab".toList 1).take 100 = (window "ab".toList 0).drop 900
      ∧ (window "ab".toList 0).length = min 1000 ("ab".toList.length - 0 * 900)) :=
  ⟨by decide, c3_window "ab".toList 0 (by decide)⟩

/-- C4: for every text and every pair of parameters with positive step
`chunk_size - overlap` (in particular the fixed constants 1000 and 100),
the chunking loop terminates: whenever the guard `start < len(text)` holds
the iteration emits one chunk and advances the cursor by exactly
`chunk_size - overlap`; the loop runs for exactly
`⌈(len(text) - start) / (chunk_size - overlap)⌉` iterations, so its result
is the same for every fuel covering the remaining distance. -/
theorem c4_terminates (text : List Char) (chunk_size overlap : Nat)
    (h : overlap < chunk_size) (fuel start index : Nat)
    (hfuel : text.length - start ≤ fuel) :
    (start < text.length →
      chunkTextAux text chunk_size overlap fuel start index =
        Chunk.mk index (pyStrip ((text.drop start).take chunk_size)) ::
          chunkTextAux text chunk_size overlap (fuel - 1)
            (start + (chunk_size - overlap)) (index + 1))
    ∧ (chunkTextAux text chunk_size overlap fuel start index).length =
        (text.length - start + (chunk_size - overlap) - 1) / (chunk_size - overlap)
    ∧ ∀ fuel', text.length - start ≤ fuel' →
        chunkTextAux text chunk_size overlap fuel start index =
          chunkTextAux text chunk_size overlap fuel' start index := by
  refine ⟨fun hs => ?_, chunkTextAux_length text chunk_size overlap h fuel start index hfuel,
    fun fuel' h' => chunkTextAux_stable text chunk_size overlap h fuel fuel' start index hfuel h'⟩
  obtain ⟨f, rfl⟩ : ∃ f, fuel = f + 1 := ⟨fuel - 1, by omega⟩
  simp only [chunkTextAux, if_pos hs]
  have e : f + 1 - 1 = f := by omega
  have e2 : start + chunk_size - overlap = start + (chunk_size - overlap) := by omega
  rw [e, e2]

theorem c4_witness :
    chunkTextAux "ab".toList 2 1 2 0 0 =
        Chunk.mk 0 (pyStrip (("ab".toList.drop 0).take 2)) ::
          chunkTextAux "ab".toList 2 1 (2 - 1) (0 + (2 - 1)) 1
    ∧ (chunkTextAux "ab".toList 2 1 2 0 0).length =
        ("ab".toList.length - 0 + (2 - 1) - 1) / (2 - 1) :=
  ⟨(c4_terminates "ab".toList 2 1 (by decide) 2 0 0 (by decide)).1 (by decide),
    (c4_terminates "ab".toList 2 1 (by decide) 2 0 0 (by decide)).2.1⟩

/-- C5: `extract_text` raises the UnsupportedType error if and only if the
MIME type is not `application/pdf`, not one of the two recognized Word MIME
strings, and does not start with `text/`; the error's message names the
offending MIME type (`"Unsupported file type: " + mime_type`). -/
theorem c5_unsupported (env : FileEnv) (mime_type : List Char) :
    ((∃ e, extract_text env mime_type = Except.error e) ↔
      (mime_type ≠ "application/pdf".toList
        ∧ mime_type ∉
          ["application/vnd.openxmlformats-officedocument.wordprocessingml.document".toList,
            "application/msword".toList]
        ∧ "text/".toList.isPrefixOf mime_type = false))
    ∧ ∀ e, extract_text env mime_type = Except.error e →
        e = "Unsupported file type: ".toList ++ mime_type := by
  by_cases h1 : mime_type = "application/pdf".toList
  · have hv : ∃ v, extract_text env mime_type = Except.ok v := by
      unfold extract_text
      rw [if_pos h1]
      exact ⟨_, rfl⟩
    obtain ⟨v, hv⟩ := hv
    refine ⟨⟨?_, ?_⟩, ?_⟩
    · rintro ⟨e, hee⟩
      rw [hv] at hee
      exact Except.noConfusion hee
    · rintro ⟨hne, -, -⟩
      exact absurd h1 hne
    · intro e hee
      rw [hv] at hee
      exact Except.noConfusion hee
  · by_cases h2 : mime_type ∈
      ["application/vnd.openxmlformats-officedocument.wordprocessingml.document".toList,
        "application/msword".toList]
    · have hv : ∃ v, extract_text env mime_type = Except.ok v := by
        unfold extract_text
        rw [if_neg h1, if_pos h2]
        exact ⟨_, rfl⟩
      obtain ⟨v, hv⟩ := hv
      refine ⟨⟨?_, ?_⟩, ?_⟩
      · rintro ⟨e, hee⟩
        rw [hv] at hee
        exact Except.noConfusion hee
      · rintro ⟨-, hne, -⟩
        exact absurd h2 hne
      · intro e hee
        rw [hv] at hee
        exact Except.noConfusion hee
    · by_cases h3 : "text/".toList.isPrefixOf mime_type = true
      · have hv : ∃ v, extract_text env mime_type = Except.ok v := by
          unfold extract_text
          rw [if_neg h1, if_neg h2, if_pos h3]
          exact ⟨_, rfl⟩
        obtain ⟨v, hv⟩ := hv
        refine ⟨⟨?_, ?_⟩, ?_⟩
        · rintro ⟨e, hee⟩
          rw [hv] at hee
          exact Except.noConfusion hee
        · rintro ⟨-, -, hf⟩
          rw [h3] at hf
          exact Bool.noConfusion hf
        · intro e hee
          rw [hv] at hee
          exact Except.noConfusion hee
      · have hv : extract_text env mime_type =
            Except.error ("Unsupported file type: ".toList ++ mime_type) := by
          unfold extract_text
          rw [if_neg h1, if_neg h2, if_neg h3]
        refine ⟨⟨fun _ => ⟨h1, h2, Bool.eq_false_iff.mpr h3⟩, fun _ => ⟨_, hv⟩⟩, ?_⟩
        intro e hee
        rw [hv] at hee
        exact (Except.error.inj hee).symm

theorem c5_witness :
    extract_text (FileEnv.mk [] [] []) "application/unknown".toList =
      Except.error ("Unsupported file type: ".toList ++ "application/unknown".toList) := by
  obtain ⟨e, he⟩ := (c5_unsupported (FileEnv.mk [] [] []) "application/unknown".toList).1.mpr
    ⟨by decide, by decide, by decide⟩
  have hm := (c5_unsupported (FileEnv.mk [] [] []) "application/unknown".toList).2 e he
  rw [hm] at he
  exact he

/-- C6: for MIME type `application/pdf`, `extract_text` returns the
concatenation, in page order, of every non-empty page text each followed by
a single newline; pages yielding no extractable text contribute nothing.
On a 2-page PDF whose pages yield `"Hello"` and `"World"` it returns
`"Hello\nWorld\n"`. -/
theorem c6_pdf (env : FileEnv) :
    extract_text env "application/pdf".toList =
      Except.ok ((env.pdfPages.map (fun page_text =>
        match page_text with
        | some t => if t = [] then ([] : List Char) else t ++ ['\n']
        | none => ([] : List Char))).flatten)
    ∧ (env.pdfPages = [some "Hello".toList, some "World".toList] →
        extract_text env "application/pdf".toList = Except.ok "Hello\nWorld\n".toList) := by
  have main : extract_text env "application/pdf".toList =
      Except.ok ((env.pdfPages.map (fun page_text =>
        match page_text with
        | some t => if t = [] then ([] : List Char) else t ++ ['\n']
        | none => ([] : List Char))).flatten) := by
    unfold extract_text
    rw [if_pos rfl, extract_foldl_pages, List.nil_append]
  refine ⟨main, fun hp => ?_⟩
  rw [main, hp]
  rfl

theorem c6_witness :
    extract_text (FileEnv.mk [some "Hello".toList, some "World".toList] [] [])
        "application/pdf".toList = Except.ok "Hello\nWorld\n".toList :=
  (c6_pdf (FileEnv.mk [some "Hello".toList, some "World".toList] [] [])).2 (by decide)

/-- C7: chunk indices are contiguous starting at 0 in the order produced:
the chunk at position `i` carries index `i`, and for nonempty text the
chunk list is nonempty (so the first chunk's index is 0 and consecutive
indices increase by exactly 1). -/
theorem c7_indices (T : List Char) :
    (∀ i (h : i < (chunk_text T).length), ((chunk_text T).get ⟨i, h⟩).index = i)
    ∧ (T ≠ [] → chunk_text T ≠ []) := by
  refine ⟨fun i h => by rw [chunk_text_get T i h], fun hne hcon => ?_⟩
  have h0 : (chunk_text T).length = 0 := by rw [hcon]; rfl
  rw [chunk_text_length_eq] at h0
  have hT : T.length = 0 := by omega
  exact hne (List.length_eq_zero.mp hT)

theorem c7_witness :
    0 < (chunk_text "ab".toList).length
    ∧ ((chunk_text "ab".toList).get ⟨0, by decide⟩).index = 0
    ∧ chunk_text "ab".toList ≠ [] :=
  ⟨by decide, (c7_indices "ab".toList).1 0 (by decide),
    (c7_indices "ab".toList).2 (by decide)⟩

/-- C8: every emitted chunk's content is its slice `text[start:end]` with
leading and trailing whitespace trimmed: a contiguous substring of the
text, of length at most 1000, whose first and last characters are not
whitespace; an all-whitespace slice yields empty-string content (and the
chunk is still emitted: position `i` of the chunk list holds it). -/
theorem c8_content (T : List Char) (i : Nat) (h : i < (chunk_text T).length) :
    ((chunk_text T).get ⟨i, h⟩).content = pyStrip (window T i)
    ∧ ((chunk_text T).get ⟨i, h⟩).content <:+: T
    ∧ ((chunk_text T).get ⟨i, h⟩).content.length ≤ 1000
    ∧ (∀ c, ((chunk_text T).get ⟨i, h⟩).content.head? = some c → c.isWhitespace = false)
    ∧ (∀ c, ((chunk_text T).get ⟨i, h⟩).content.getLast? = some c → c.isWhitespace = false)
    ∧ ((∀ c ∈ window T i, c.isWhitespace = true) →
        ((chunk_text T).get ⟨i, h⟩).content = []) := by
  rw [chunk_text_get T i h]
  refine ⟨rfl, ?_, ?_, ?_, ?_, ?_⟩
  · exact (pyStrip_isInfix (window T i)).trans (window_isInfix T i)
  · show (pyStrip (window T i)).length ≤ 1000
    have h1 : (pyStrip (window T i)).length ≤ (window T i).length :=
      List.IsInfix.length_le (pyStrip_isInfix (window T i))
    have h2 : (window T i).length ≤ 1000 := by
      simp only [window]
      exact List.length_take_le 1000 _
    omega
  · exact fun c hc => pyStrip_head?_not_white (window T i) c hc
  · exact fun c hc => pyStrip_getLast?_not_white (window T i) c hc
  · exact fun hw => pyStrip_eq_nil_of_all_white (window T i) hw

theorem c8_witness :
    0 < (chunk_text "ab".toList).length
    ∧ (((chunk_text "ab".toList).get ⟨0, by decide⟩).content = pyStrip (window "ab".toList 0)
      ∧ ((chunk_text "ab".toList).get ⟨0, by decide⟩).content <:+: "ab".toList
      ∧ ((chunk_text "ab".toList).get ⟨0, by decide⟩).content.length ≤ 1000
      ∧ (∀ c, ((chunk_text "ab".toList).get ⟨0, by decide⟩).content.head? = some c →
          c.isWhitespace = false)
      ∧ (∀ c, ((chunk_text "ab".toList).get ⟨0, by decide⟩).content.getLast? = some c →
          c.isWhitespace = false)
      ∧ ((∀ c ∈ window "ab".toList 0, c.isWhitespace = true) →
          ((chunk_text "ab".toList).get ⟨0, by decide⟩).content = [])) :=
  ⟨by decide, c8_content "ab".toList 0 (by decide)⟩

/-- C9: for every MIME type starting with `text/`, `extract_text` returns
the file's contents (read as UTF-8 text) verbatim, with no transformation. -/
theorem c9_text_mime (env : FileEnv) (mime_type : List Char)
    (h : "text/".toList.isPrefixOf mime_type = true) :
    extract_text env mime_type = Except.ok env.textContent := by
  have h1 : mime_type ≠ "application/pdf".toList := by
    intro he
    rw [he] at h
    exact absurd h (by decide)
  have h2 : mime_type ∉
      ["application/vnd.openxmlformats-officedocument.wordprocessingml.document".toList,
        "application/msword".toList] := by
    intro hm
    rcases List.mem_cons.mp hm with he | hm2
    · rw [he] at h
      exact absurd h (by decide)
    · rcases List.mem_cons.mp hm2 with he | hm3
      · rw [he] at h
        exact absurd h (by decide)
      · exact absurd hm3 (List.not_mem_nil mime_type)
  unfold extract_text
  rw [if_neg h1, if_neg h2, if_pos h]

theorem c9_witness :
    "text/".toList.isPrefixOf "text/plain".toList = true
    ∧ extract_text (FileEnv.mk [] [] "hi".toList) "text/plain".toList =
        Except.ok (FileEnv.mk [] [] "hi".toList).textContent :=
  ⟨by decide, c9_text_mime (FileEnv.mk [] [] "hi".toList) "text/plain".toList (by decide)⟩

/-- C10: at the default parameters every character position `p < len(text)`
lies inside the pre-trim source window of at least one emitted chunk: no
character of the input is skipped between consecutive windows. -/
theorem c10_coverage (T : List Char) (p : Nat) (hp : p < T.length) :
    ∃ i, i < (chunk_text T).length ∧ i * 900 ≤ p ∧ p < i * 900 + 1000
      ∧ (window T i)[p - i * 900]? = T[p]? := by
  refine ⟨p / 900, ?_, by omega, by omega, ?_⟩
  · rw [chunk_text_length_eq]
    omega
  · show ((T.drop (p / 900 * 900)).take 1000)[p - p / 900 * 900]? = T[p]?
    rw [List.getElem?_take, if_pos (by omega), List.getElem?_drop]
    have e : p / 900 * 900 + (p - p / 900 * 900) = p := by omega
    rw [e]

theorem c10_witness :
    1 < ("ab".toList).length
    ∧ ∃ i, i < (chunk_text "ab".toList).length ∧ i * 900 ≤ 1 ∧ 1 < i * 900 + 1000
        ∧ (window "ab".toList i)[1 - i * 900]? = ("ab".toList)[1]? :=
  ⟨by decide, c10_coverage "ab".toList 1 (by decide)⟩

